import Mathlib

/-!
# Verification of the brand-scanner core

A shallow embedding of the functions of `brand-scanner-app.py`:
the URL filter, the fetcher, the sitemap resolver, the breadth-first
crawler, the visible-text extractor and the term matcher, together with
theorems settling the specification claims about them.

Strings handled character-wise by the Python code are modelled as
`List Char`; Python library routines (`str.lower`, `str.strip`,
`str.find`, whitespace tests) are modelled by the character-level
definitions below.
-/

namespace BrandScanner

/-- Model of Python `str.lower` at the character level (`Char.toLower`
maps each character independently, so positions are preserved, matching
the way the matcher uses indices of the lowercase view in the original
text). -/
def lowerList (s : List Char) : List Char := s.map Char.toLower

/-- `leadsList pat l` : `pat` occurs at the very start of `l`
(character-wise equality). -/
def leadsList : List Char → List Char → Bool
  | [], _ => true
  | _ :: _, [] => false
  | a :: as, b :: bs => a = b && leadsList as bs

/-- `hasSub pat hay` : `pat` occurs contiguously somewhere in `hay`;
model of the Python `in` test on strings. -/
def hasSub (pat : List Char) : List Char → Bool
  | [] => pat.isEmpty
  | c :: rest => leadsList pat (c :: rest) || hasSub pat rest

/-- Model of Python `str.strip`: drop whitespace from both ends. -/
def stripChars (s : List Char) : List Char :=
  ((s.dropWhile Char.isWhitespace).reverse.dropWhile Char.isWhitespace).reverse

/-- First index at which `pat` occurs in `hay` (model of `str.find` with
start `0`, as an index into `hay`). -/
def findIdx0 (pat : List Char) : List Char → Option ℕ
  | [] => if pat.isEmpty then some 0 else none
  | c :: rest =>
    if leadsList pat (c :: rest) then some 0
    else (findIdx0 pat rest).map (· + 1)

/-- Model of Python `hay.find(pat, start)`: smallest index `i ≥ start`
at which `pat` occurs in `hay`, `none` when there is none (Python
returns `-1` there; `start` beyond the length also yields `-1`). -/
def findFrom (hay pat : List Char) (start : ℕ) : Option ℕ :=
  if start ≤ hay.length then (findIdx0 pat (hay.drop start)).map (· + start)
  else none

/-! ## Basic facts about the string utilities -/

theorem leadsList_iff_take (pat l : List Char) :
    leadsList pat l = true ↔ l.take pat.length = pat := by
  induction pat generalizing l with
  | nil => simp [leadsList]
  | cons a as ih =>
    cases l with
    | nil => simp [leadsList]
    | cons b bs =>
      simp [leadsList, List.take, ih, eq_comm (a := a) (b := b), and_comm]

theorem leadsList_length_le {pat l : List Char} (h : leadsList pat l = true) :
    pat.length ≤ l.length := by
  rw [leadsList_iff_take] at h
  conv_lhs => rw [← h]
  simp

theorem findIdx0_some {pat l : List Char} {i : ℕ} (h : findIdx0 pat l = some i) :
    leadsList pat (l.drop i) = true ∧ i + pat.length ≤ l.length ∧
      ∀ j < i, leadsList pat (l.drop j) = false := by
  induction l generalizing i with
  | nil =>
    simp only [findIdx0] at h
    split at h
    · rename_i hp
      have hi : i = 0 := (Option.some.inj h).symm
      have hpe : pat = [] := List.isEmpty_iff.mp hp
      subst hi hpe
      exact ⟨rfl, by simp, by omega⟩
    · exact absurd h (by simp)
  | cons c rest ih =>
    simp only [findIdx0] at h
    split at h
    · rename_i hl
      have hi : i = 0 := (Option.some.inj h).symm
      subst hi
      exact ⟨hl, by simpa using leadsList_length_le hl, by omega⟩
    · rename_i hl
      cases hfind : findIdx0 pat rest with
      | none => rw [hfind] at h; simp at h
      | some k =>
        rw [hfind] at h
        simp only [Option.map_some'] at h
        have hi : i = k + 1 := (Option.some.inj h).symm
        subst hi
        obtain ⟨h1, h2, h3⟩ := ih hfind
        refine ⟨by simpa using h1, by simp; omega, ?_⟩
        intro j hj
        cases j with
        | zero => simpa using hl
        | succ j0 => simpa using h3 j0 (by omega)

theorem findIdx0_none {pat l : List Char} (h : findIdx0 pat l = none) :
    ∀ j, leadsList pat (l.drop j) = false := by
  induction l with
  | nil =>
    intro j
    simp only [findIdx0] at h
    split at h
    · simp at h
    · rename_i hp
      cases pat with
      | nil => simp at hp
      | cons a as => simp [List.drop_nil, leadsList]
  | cons c rest ih =>
    intro j
    simp only [findIdx0] at h
    split at h
    · simp at h
    · rename_i hl
      cases j with
      | zero => simpa using hl
      | succ j0 =>
        have hrest : findIdx0 pat rest = none := by
          cases hfind : findIdx0 pat rest with
          | none => rfl
          | some k => rw [hfind] at h; simp at h
        simpa using ih hrest j0

/-! ## Fetcher (`fetch_html`)

`session.get` either raises a `requests.RequestException` (network
error, timeout) or yields a response with a status code, headers and a
body.  The transport outcome is the input of the model; `fetch_html`
itself is the code under verification. -/

/-- An HTTP response as `fetch_html` inspects it: status code, the
`Content-Type` header (`none` when the header is missing, in which case
`headers.get("Content-Type", "")` yields `""`), and the body text. -/
structure HttpResponse where
  status : ℕ
  contentType : Option String
  body : String

/-- The transport outcome of `session.get`: a response, or a raised
`requests.RequestException` (connection error or timeout). -/
inductive FetchOutcome where
  | raised : FetchOutcome
  | ok : HttpResponse → FetchOutcome

/-- Embedding of `fetch_html` (lines 46-55): `None` unless the status is
exactly 200 and the declared content type contains `"text/html"`; a
raised transport exception is caught and also yields `None`.  The
function is total on `FetchOutcome`, which is the "never raises to the
caller" part of the contract. -/
def fetch_html : FetchOutcome → Option String
  | .raised => none
  | .ok resp =>
    if resp.status ≠ 200 then none
    else if ¬ (hasSub "text/html".toList (resp.contentType.getD "").toList) then none
    else some resp.body

/-! ## Matcher (`search_terms_in_text`)

The code scans `lower_text = text.lower()` with `str.find`, advancing
past each hit by `len(term)`, and collects a snippet from the
original-case `text` for every hit.  The `while True` loop is embedded
with an explicit iteration budget (`fuel`); `none` models a loop that
has not finished within that budget.  For non-empty terms
`text.length + 1` iterations always suffice (proved below), so the
top-level function runs the loop with exactly that budget. -/

/-- Snippet taken at a match index (lines 162-164): window
`[idx - 60, idx + termLen + 60)` clamped to the text (natural
subtraction is the `max(0, ...)` clamp), then stripped. -/
def snippetAt (text : List Char) (termLen idx : ℕ) : List Char :=
  let ss := idx - 60
  let se := min text.length (idx + termLen + 60)
  stripChars ((text.drop ss).take (se - ss))

/-- Embedding of the inner `while True` loop of `search_terms_in_text`
for one term (lines 157-166), with an explicit iteration budget. -/
def findTermLoop (lowerText text term : List Char) : ℕ → ℕ → Option (List (List Char))
  | _, 0 => none
  | start, fuel + 1 =>
    match findFrom lowerText (lowerList term) start with
    | none => some []
    | some idx =>
      match findTermLoop lowerText text term (idx + term.length) fuel with
      | none => none
      | some rest => some (snippetAt text term.length idx :: rest)

/-- Effect of `results[term].append(snippet)` over one term's snippet
list on the `defaultdict(list)`: no access happens when the term had no
hits (so no key is created), otherwise the key's list is extended (and
created at the back on first use, Python dicts being insertion
ordered). -/
def dictAppend (m : List (List Char × List (List Char))) (k : List Char)
    (vs : List (List Char)) : List (List Char × List (List Char)) :=
  if vs.isEmpty then m
  else if m.any (fun p => p.1 = k) then
    m.map (fun p => if p.1 = k then (p.1, p.2 ++ vs) else p)
  else m ++ [(k, vs)]

/-- One step of the `for term in terms` loop. -/
def searchStep (text : List Char) (acc : Option (List (List Char × List (List Char))))
    (term : List Char) : Option (List (List Char × List (List Char))) :=
  match acc with
  | none => none
  | some results =>
    match findTermLoop (lowerList text) text term 0 (text.length + 1) with
    | none => none
    | some snips => some (dictAppend results term snips)

/-- Embedding of `search_terms_in_text` (lines 148-168).  The result is
the insertion-ordered dict as an association list; `none` models
non-termination of an inner loop (which, as proved below, happens
exactly in the presence of an empty term). -/
def search_terms_in_text (text : List Char) (terms : List (List Char)) :
    Option (List (List Char × List (List Char))) :=
  terms.foldl (searchStep text) (some [])

/-! ## Further string-search facts -/

theorem lowerList_length (s : List Char) : (lowerList s).length = s.length := by
  simp [lowerList]

theorem lowerList_ne_nil {s : List Char} (h : s ≠ []) : lowerList s ≠ [] := by
  simpa [lowerList] using h

theorem leadsList_nil_false {pat : List Char} (h : pat ≠ []) :
    leadsList pat [] = false := by
  cases pat with
  | nil => exact absurd rfl h
  | cons a as => rfl

theorem findIdx0_nil_pat (l : List Char) : findIdx0 [] l = some 0 := by
  cases l <;> simp [findIdx0, leadsList]

theorem findFrom_some {hay pat : List Char} {start i : ℕ}
    (h : findFrom hay pat start = some i) :
    start ≤ i ∧ leadsList pat (hay.drop i) = true ∧ i + pat.length ≤ hay.length ∧
      ∀ j, start ≤ j → j < i → leadsList pat (hay.drop j) = false := by
  unfold findFrom at h
  split at h
  · rename_i hle
    cases hf : findIdx0 pat (hay.drop start) with
    | none => rw [hf] at h; simp at h
    | some k =>
      rw [hf] at h
      simp only [Option.map_some'] at h
      have hik : i = k + start := (Option.some.inj h).symm
      subst hik
      obtain ⟨h1, h2, h3⟩ := findIdx0_some hf
      rw [List.drop_drop] at h1
      rw [List.length_drop] at h2
      rw [Nat.add_comm start k] at h1
      refine ⟨by omega, h1, by omega, ?_⟩
      intro j hj1 hj2
      have := h3 (j - start) (by omega)
      rw [List.drop_drop] at this
      have hj : start + (j - start) = j := by omega
      rwa [hj] at this
  · simp at h

theorem findFrom_none_of_ge {hay pat : List Char} {start : ℕ} (hpat : pat ≠ [])
    (hge : hay.length ≤ start) : findFrom hay pat start = none := by
  unfold findFrom
  split
  · rename_i hle
    have hdrop : hay.drop start = [] := List.drop_eq_nil_of_le (by omega)
    rw [hdrop]
    have : findIdx0 pat [] = none := by
      simp [findIdx0, List.isEmpty_iff, hpat]
    rw [this]
    rfl
  · rfl

theorem findFrom_none {hay pat : List Char} (hpat : pat ≠ []) {start : ℕ}
    (h : findFrom hay pat start = none) :
    ∀ j, start ≤ j → leadsList pat (hay.drop j) = false := by
  intro j hj
  unfold findFrom at h
  split at h
  · rename_i hle
    cases hf : findIdx0 pat (hay.drop start) with
    | none =>
      have := findIdx0_none hf (j - start)
      rw [List.drop_drop] at this
      have hjs : start + (j - start) = j := by omega
      rwa [hjs] at this
    | some k => rw [hf] at h; simp at h
  · rename_i hgt
    have hdrop : hay.drop j = [] := List.drop_eq_nil_of_le (by omega)
    rw [hdrop]
    exact leadsList_nil_false hpat

theorem findFrom_nil_pat {hay : List Char} {start : ℕ} (h : start ≤ hay.length) :
    findFrom hay [] start = some start := by
  unfold findFrom
  rw [if_pos h, findIdx0_nil_pat]
  simp

/-! ## Matcher termination (claim C10 groundwork) -/

theorem findTermLoop_succ (lowerText text term : List Char) (start fuel : ℕ) :
    findTermLoop lowerText text term start (fuel + 1) =
      match findFrom lowerText (lowerList term) start with
      | none => some []
      | some idx =>
        match findTermLoop lowerText text term (idx + term.length) fuel with
        | none => none
        | some rest => some (snippetAt text term.length idx :: rest) := rfl

theorem findTermLoop_isSome {lowerText text term : List Char} (hne : term ≠ []) :
    ∀ (fuel start : ℕ), lowerText.length ≤ fuel + start →
      (findTermLoop lowerText text term start (fuel + 1)).isSome = true := by
  intro fuel
  induction fuel with
  | zero =>
    intro start hlen
    have hnone : findFrom lowerText (lowerList term) start = none :=
      findFrom_none_of_ge (lowerList_ne_nil hne) (by omega)
    simp [findTermLoop, hnone]
  | succ f ih =>
    intro start hlen
    cases hf : findFrom lowerText (lowerList term) start with
    | none => simp [findTermLoop, hf]
    | some idx =>
      obtain ⟨h1, _, h3, _⟩ := findFrom_some hf
      have hlt : 0 < term.length := List.length_pos.mpr hne
      rw [lowerList_length] at h3
      have hcall := ih (idx + term.length) (by omega)
      obtain ⟨rest, hrest⟩ := Option.isSome_iff_exists.mp hcall
      rw [findTermLoop_succ, hf]
      simp [hrest]

theorem findTermLoop_empty_term {lowerText text : List Char} :
    ∀ (fuel start : ℕ), start ≤ lowerText.length →
      findTermLoop lowerText text [] start fuel = none := by
  intro fuel
  induction fuel with
  | zero => intro start _; rfl
  | succ f ih =>
    intro start hle
    have hfind : findFrom lowerText (lowerList []) start = some start := by
      simpa [lowerList] using findFrom_nil_pat hle
    have hrec := ih start hle
    rw [findTermLoop_succ, hfind]
    simp [hrec]

theorem searchFold_none (text : List Char) (terms : List (List Char)) :
    terms.foldl (searchStep text) none = none := by
  induction terms with
  | nil => rfl
  | cons t ts ih => simpa [searchStep] using ih

theorem searchFold_isSome (text : List Char) :
    ∀ (terms : List (List Char)) (acc : List (List Char × List (List Char))),
      (∀ t ∈ terms, t ≠ []) →
      (terms.foldl (searchStep text) (some acc)).isSome = true := by
  intro terms
  induction terms with
  | nil => intro acc _; rfl
  | cons t ts ih =>
    intro acc h
    have ht : t ≠ [] := h t (by simp)
    have hloop :
        (findTermLoop (lowerList text) text t 0 (text.length + 1)).isSome = true := by
      exact @findTermLoop_isSome (lowerList text) text t ht
        text.length 0 (by simp [lowerList_length])
    obtain ⟨snips, hsnips⟩ := Option.isSome_iff_exists.mp hloop
    have hstep : searchStep text (some acc) t = some (dictAppend acc t snips) := by
      simp [searchStep, hsnips]
    rw [List.foldl_cons, hstep]
    exact ih (dictAppend acc t snips) (fun u hu => h u (by simp [hu]))

theorem searchFold_empty_term (text : List Char) :
    ∀ (terms : List (List Char)) (acc : Option (List (List Char × List (List Char)))),
      [] ∈ terms → terms.foldl (searchStep text) acc = none := by
  intro terms
  induction terms with
  | nil => intro acc h; simp at h
  | cons t ts ih =>
    intro acc hmem
    rcases List.mem_cons.mp hmem with ht | hts
    · have hstep : searchStep text acc t = none := by
        cases acc with
        | none => rfl
        | some results =>
          have hloop : findTermLoop (lowerList text) text t 0 (text.length + 1) = none := by
            subst ht
            exact findTermLoop_empty_term (text.length + 1) 0 (by omega)
          simp [searchStep, hloop]
      rw [List.foldl_cons, hstep]
      exact searchFold_none text ts
    · rw [List.foldl_cons]
      exact ih _ hts

/-- C10: `search_terms_in_text` terminates whenever every term is
non-empty (the result of the fueled embedding is `some`), and an
empty-string term makes the inner search loop advance nowhere, so the
embedding yields `none` for every input text containing such a term:
non-emptiness of the terms is a necessary and sufficient precondition
for termination at this interface. -/
theorem c10_matcher_termination :
    (∀ (text : List Char) (terms : List (List Char)), (∀ t ∈ terms, t ≠ []) →
      (search_terms_in_text text terms).isSome = true) ∧
    (∀ (text : List Char) (terms : List (List Char)), [] ∈ terms →
      search_terms_in_text text terms = none) := by
  constructor
  · intro text terms h
    exact searchFold_isSome text terms [] h
  · intro text terms h
    exact searchFold_empty_term text terms (some []) h

/-- Witness for C10 at concrete inputs: the term list `["a"]` is
non-empty-termed and the matcher completes on text `"ab"`; the term
list `["", "a"]` contains the empty term and the matcher's loop never
finishes (modelled as `none`). -/
theorem c10_matcher_termination_witness :
    (∀ t ∈ [['a']], t ≠ []) ∧
      (search_terms_in_text ['a', 'b'] [['a']]).isSome = true ∧
      ([] : List Char) ∈ [([] : List Char), ['a']] ∧
      search_terms_in_text ['a', 'b'] [[], ['a']] = none := by
  refine ⟨by decide, c10_matcher_termination.1 ['a', 'b'] [['a']] (by decide),
    by decide, c10_matcher_termination.2 ['a', 'b'] [[], ['a']] (by decide)⟩

/-! ## Absent terms produce no key (claim C9) -/

theorem hasSub_false_leads {pat hay : List Char} (h : hasSub pat hay = false) :
    ∀ j, leadsList pat (hay.drop j) = false := by
  induction hay with
  | nil =>
    intro j
    simp only [hasSub, List.isEmpty_iff] at h
    have hpat : pat ≠ [] := by
      intro he
      rw [he] at h
      simp at h
    simpa [List.drop_nil] using leadsList_nil_false hpat
  | cons c rest ih =>
    intro j
    simp only [hasSub, Bool.or_eq_false_iff] at h
    obtain ⟨h1, h2⟩ := h
    cases j with
    | zero => simpa using h1
    | succ j0 => simpa using ih h2 j0

theorem findFrom_none_of_no_occ {hay pat : List Char}
    (h : ∀ j, leadsList pat (hay.drop j) = false) (start : ℕ) :
    findFrom hay pat start = none := by
  unfold findFrom
  split
  · cases hf : findIdx0 pat (hay.drop start) with
    | none => rfl
    | some k =>
      obtain ⟨h1, _, _⟩ := findIdx0_some hf
      rw [List.drop_drop] at h1
      rw [h (start + k)] at h1
      simp at h1
  · rfl

theorem dictAppend_no_key {m : List (List Char × List (List Char))} {k t : List Char}
    {vs : List (List Char)} (hm : ∀ p ∈ m, p.1 ≠ t) (hk : k = t → vs = []) :
    ∀ p ∈ dictAppend m k vs, p.1 ≠ t := by
  intro p hp
  unfold dictAppend at hp
  split at hp
  · exact hm p hp
  · split at hp
    · obtain ⟨q, hq, hpq⟩ := List.mem_map.mp hp
      by_cases hq1 : q.1 = k
      · rw [if_pos hq1] at hpq
        rw [← hpq]
        simpa [hq1] using hm q hq
      · rw [if_neg hq1] at hpq
        rw [← hpq]
        exact hm q hq
    · rename_i hvs _
      rcases List.mem_append.mp hp with hin | hone
      · exact hm p hin
      · have hpk : p = (k, vs) := by simpa using hone
        rw [hpk]
        intro hkt
        exact hvs (by simpa using hk hkt)

theorem searchFold_no_key {text t : List Char}
    (hno : ∀ start, findFrom (lowerList text) (lowerList t) start = none) :
    ∀ (terms : List (List Char)) (acc m : List (List Char × List (List Char))),
      (∀ p ∈ acc, p.1 ≠ t) →
      terms.foldl (searchStep text) (some acc) = some m →
      ∀ p ∈ m, p.1 ≠ t := by
  intro terms
  induction terms with
  | nil =>
    intro acc m hacc hm
    have : acc = m := Option.some.inj hm
    exact this ▸ hacc
  | cons u ts ih =>
    intro acc m hacc hm
    rw [List.foldl_cons] at hm
    cases hloop : findTermLoop (lowerList text) text u 0 (text.length + 1) with
    | none =>
      rw [show searchStep text (some acc) u = none by simp [searchStep, hloop]] at hm
      rw [searchFold_none] at hm
      exact absurd hm (by simp)
    | some snips =>
      rw [show searchStep text (some acc) u = some (dictAppend acc u snips) by
        simp [searchStep, hloop]] at hm
      refine ih (dictAppend acc u snips) m (dictAppend_no_key hacc ?_) hm
      intro hut
      subst hut
      rw [findTermLoop_succ, hno 0] at hloop
      exact (Option.some.inj hloop).symm

/-- C9: a term with zero case-insensitive occurrences in the text (its
lowercase form occurs nowhere in the lowercase text) is absent from the
matcher's result mapping: no key of the returned dict equals it. -/
theorem c9_zero_occurrence_term_absent (text : List Char) (terms : List (List Char))
    (t : List Char) (m : List (List Char × List (List Char)))
    (hno : hasSub (lowerList t) (lowerList text) = false)
    (hm : search_terms_in_text text terms = some m) :
    ∀ p ∈ m, p.1 ≠ t := by
  have hfind : ∀ start, findFrom (lowerList text) (lowerList t) start = none :=
    findFrom_none_of_no_occ (hasSub_false_leads hno)
  exact searchFold_no_key hfind terms [] m (by simp) hm

/-- Witness for C9 at a concrete input: scanning `"ab"` for the single
term `"a"`, the term `"z"` has no occurrence and indeed appears as no
key of the result. -/
theorem c9_zero_occurrence_term_absent_witness :
    hasSub (lowerList ['z']) (lowerList ['a', 'b']) = false ∧
      search_terms_in_text ['a', 'b'] [['a']] = some [(['a'], [['a', 'b']])] ∧
      ∀ p ∈ [((['a'] : List Char), [['a', 'b']])], p.1 ≠ ['z'] := by
  refine ⟨by decide, by decide,
    c9_zero_occurrence_term_absent ['a', 'b'] [['a']] ['z'] [(['a'], [['a', 'b']])]
      (by decide) (by decide)⟩

/-! ## Fetcher contract (claim C5) -/

/-- C5: `fetch_html` returns the body exactly when the transport
delivered a response whose status is 200 and whose declared content
type contains `"text/html"`; every other outcome — another status, a
non-HTML content type, or a raised network error / timeout — yields
`none`.  Totality of `fetch_html` on `FetchOutcome` is the "never
raises to the caller" half of the contract: the transport exception is
an input constructor here, consumed by the `except` branch. -/
theorem c5_fetch_html_contract (out : FetchOutcome) (b : String) :
    fetch_html out = some b ↔
      ∃ resp, out = FetchOutcome.ok resp ∧ resp.status = 200 ∧
        hasSub "text/html".toList (resp.contentType.getD "").toList = true ∧
        b = resp.body := by
  constructor
  · intro hsome
    cases out with
    | raised => exact absurd hsome (by simp [fetch_html])
    | ok resp =>
      simp only [fetch_html] at hsome
      split_ifs at hsome with hs hc
      · push_neg at hs
        exact ⟨resp, rfl, hs, hc, (Option.some.inj hsome).symm⟩
  · rintro ⟨resp, rfl, h200, hsub, rfl⟩
    simp only [fetch_html]
    rw [if_neg (not_not_intro h200), if_neg (not_not_intro hsub)]

/-! ## Matcher refinement against the spec's description (claim C4)

The following definitions are written from the specification's words,
not from the code: an occurrence of the term at index `i` is the
equality of the `len(term)`-character slice of the lowercase text at
`i` with the lowercase term; the scan walks left to right and, after a
match at `i`, resumes at `i + len(term)`; a snippet is the window
`[i - 60, i + len(term) + 60)` of the original-case text, clamped to
the text bounds and trimmed. -/

/-- The term (lowercase view `pat`) occurs at index `i` of the
lowercase text `l`. -/
def occTest (l pat : List Char) (i : ℕ) : Prop := (l.drop i).take pat.length = pat

instance (l pat : List Char) (i : ℕ) : Decidable (occTest l pat i) :=
  inferInstanceAs (Decidable ((l.drop i).take pat.length = pat))

/-- Spec-side scan: all match indices found scanning left to right,
resuming after a match at `i` at position `i + pat.length`. -/
def specScan (l pat : List Char) (hpat : pat ≠ []) (start : ℕ) : List ℕ :=
  if l.length < start + pat.length then []
  else if occTest l pat start then
    start :: specScan l pat hpat (start + pat.length)
  else specScan l pat hpat (start + 1)
termination_by l.length + 1 - start
decreasing_by
  all_goals
    have hp : 0 < pat.length := List.length_pos.mpr hpat
    simp_wf
    omega

/-- Spec-side snippet at match index `i`: the window
`[i - 60, i + termLen + 60)` over the original-case text, clamped to
the text bounds (integer arithmetic, clamped from below at 0 and from
above at the text length), then trimmed. -/
def specSnippet (text : List Char) (termLen i : ℕ) : List Char :=
  let lo := (max 0 ((i : ℤ) - 60)).toNat
  let hi := min text.length (i + termLen + 60)
  stripChars ((text.drop lo).take (hi - lo))

/-- Spec-side snippets of one term over a text. -/
def specTermSnippets (text term : List Char) (h : term ≠ []) : List (List Char) :=
  (specScan (lowerList text) (lowerList term) (lowerList_ne_nil h) 0).map
    (specSnippet text term.length)

theorem occTest_iff_leadsList (l pat : List Char) (i : ℕ) :
    occTest l pat i ↔ leadsList pat (l.drop i) = true := by
  rw [leadsList_iff_take]
  exact Iff.rfl

theorem snippetAt_eq_specSnippet (text : List Char) (termLen i : ℕ) :
    snippetAt text termLen i = specSnippet text termLen i := by
  unfold snippetAt specSnippet
  have hlo : (max 0 ((i : ℤ) - 60)).toNat = i - 60 := by omega
  rw [hlo]

theorem specScan_nil_of_no_occ {l pat : List Char} {hpat : pat ≠ []} :
    ∀ {start : ℕ}, (∀ j, start ≤ j → ¬ occTest l pat j) →
      specScan l pat hpat start = [] := by
  suffices hmain : ∀ (n start : ℕ), l.length + 1 - start ≤ n →
      (∀ j, start ≤ j → ¬ occTest l pat j) → specScan l pat hpat start = [] by
    intro start hno
    exact hmain (l.length + 1 - start) start (le_refl _) hno
  intro n
  induction n with
  | zero =>
    intro start hn hno
    have hp : 0 < pat.length := List.length_pos.mpr hpat
    rw [specScan, if_pos (by omega)]
  | succ m ih =>
    intro start hn hno
    by_cases hend : l.length < start + pat.length
    · rw [specScan, if_pos hend]
    · rw [specScan, if_neg hend, if_neg (hno start (le_refl start))]
      have hp : 0 < pat.length := List.length_pos.mpr hpat
      exact ih (start + 1) (by omega) (fun j hj => hno j (by omega))

theorem specScan_first_occ {l pat : List Char} {hpat : pat ≠ []} {idx : ℕ}
    (hocc : occTest l pat idx) :
    ∀ start, start ≤ idx → (∀ j, start ≤ j → j < idx → ¬ occTest l pat j) →
      specScan l pat hpat start = idx :: specScan l pat hpat (idx + pat.length) := by
  have hp : 0 < pat.length := List.length_pos.mpr hpat
  have hfit : idx + pat.length ≤ l.length := by
    have := congrArg List.length hocc
    rw [List.length_take, List.length_drop] at this
    omega
  intro start hs hmin
  obtain ⟨d, hd⟩ := Nat.exists_eq_add_of_le hs
  clear hs
  induction d generalizing start with
  | zero =>
    have hse : start = idx := by omega
    subst hse
    rw [specScan, if_neg (by omega), if_pos hocc]
  | succ d0 ihd =>
    have hlt : start < idx := by omega
    have hoccs : ¬ occTest l pat start := hmin start (le_refl start) hlt
    rw [specScan, if_neg (by omega), if_neg hoccs]
    exact ihd (start + 1) (fun j hj1 hj2 => hmin j (by omega) hj2) (by omega)

theorem findTermLoop_eq_specScan {lowerText text term : List Char} (h : term ≠ []) :
    ∀ (fuel start : ℕ), lowerText.length ≤ fuel + start →
      findTermLoop lowerText text term start (fuel + 1) =
        some ((specScan lowerText (lowerList term) (lowerList_ne_nil h) start).map
          (specSnippet text term.length)) := by
  intro fuel
  induction fuel with
  | zero =>
    intro start hlen
    have hnone : findFrom lowerText (lowerList term) start = none :=
      findFrom_none_of_ge (lowerList_ne_nil h) (by omega)
    rw [findTermLoop_succ, hnone]
    have hscan : specScan lowerText (lowerList term) (lowerList_ne_nil h) start = [] := by
      apply specScan_nil_of_no_occ
      intro j hj hocc
      rw [occTest_iff_leadsList] at hocc
      have := findFrom_none (lowerList_ne_nil h) hnone j (by omega)
      rw [this] at hocc
      exact absurd hocc (by simp)
    rw [hscan]
    rfl
  | succ f ih =>
    intro start hlen
    cases hf : findFrom lowerText (lowerList term) start with
    | none =>
      rw [findTermLoop_succ, hf]
      have hscan : specScan lowerText (lowerList term) (lowerList_ne_nil h) start = [] := by
        apply specScan_nil_of_no_occ
        intro j hj hocc
        rw [occTest_iff_leadsList] at hocc
        rw [findFrom_none (lowerList_ne_nil h) hf j hj] at hocc
        exact absurd hocc (by simp)
      rw [hscan]
      rfl
    | some idx =>
      obtain ⟨h1, h2, h3, h4⟩ := findFrom_some hf
      have hlt : 0 < term.length := List.length_pos.mpr h
      rw [lowerList_length] at h3
      have hscan :
          specScan lowerText (lowerList term) (lowerList_ne_nil h) start =
            idx :: specScan lowerText (lowerList term) (lowerList_ne_nil h)
              (idx + (lowerList term).length) := by
        apply specScan_first_occ ((occTest_iff_leadsList _ _ _).mpr h2) start h1
        intro j hj1 hj2 hocc
        rw [occTest_iff_leadsList] at hocc
        rw [h4 j hj1 hj2] at hocc
        exact absurd hocc (by simp)
      have hrec := ih (idx + term.length) (by omega)
      rw [findTermLoop_succ, hf]
      simp only [hrec, hscan, lowerList_length]
      simp [snippetAt_eq_specSnippet]

/-- C4: for every text and non-empty term, the matcher's inner loop
finds exactly the occurrence indices of the spec's left-to-right scan
(resuming after a match at `i` at `i + len(term)`), and for each
occurrence emits exactly the spec's snippet: the window
`[i - 60, i + len(term) + 60)` of the original-case text, clamped to
the text bounds and trimmed. -/
theorem c4_matcher_refines_spec (text term : List Char) (h : term ≠ []) :
    findTermLoop (lowerList text) text term 0 (text.length + 1) =
      some (specTermSnippets text term h) := by
  unfold specTermSnippets
  exact findTermLoop_eq_specScan h text.length 0 (by simp [lowerList_length])

/-- Witness for C4 at a concrete input: text `"aAa"`, term `"aa"`.
Case-insensitively the term occurs at index 0; the scan resumes at
index 2 and finds no further occurrence (the advance rule skips the
overlapping occurrence at index 1); the snippet is the whole clamped
window `"aAa"` in original case. -/
theorem c4_matcher_refines_spec_witness :
    (['a', 'a'] : List Char) ≠ [] ∧
      findTermLoop (lowerList ['a', 'A', 'a']) ['a', 'A', 'a'] ['a', 'a'] 0 4 =
        some (specTermSnippets ['a', 'A', 'a'] ['a', 'a'] (by decide)) := by
  exact ⟨by decide, c4_matcher_refines_spec ['a', 'A', 'a'] ['a', 'a'] (by decide)⟩

/-! ## Sitemap resolver (`get_urls_from_sitemap`, claims C2 and C6)

The function fetches a sitemap URL and parses it as XML.  The model of
the world maps each sitemap URL to what that fetch-and-parse step
observes: the raised-exception path (any fetch or parse failure, which
the code catches with `except Exception` and reports via `st.warning`),
or a parsed document carrying its `<sitemap><loc>` entries and its
`<url><loc>` entries (loc texts already `.strip()`ped; entries lacking
a `loc` with text are omitted, matching the `if loc and loc.text`
guards).  The code recurses into every `<sitemap>` entry with no cycle
detection and no depth or node cap, so the recursion is embedded with
an explicit depth budget (`fuel`); `none` models a resolution that does
not complete within that recursion depth. -/

/-- Outcome of fetching and XML-parsing one sitemap URL. -/
structure ParsedSitemap where
  sitemapLocs : List String
  urlLocs : List String

/-- The world as `get_urls_from_sitemap` observes it at one URL. -/
inductive SitemapFetch where
  | failure : SitemapFetch
  | parsed : ParsedSitemap → SitemapFetch

/-- The `for sm in sitemap_tags` loop: resolve every child and
accumulate `urls.update(...)` (set union) plus the warning count;
a child that does not complete makes the whole resolution incomplete. -/
def resolveList (r : String → Option (Finset String × ℕ)) :
    List String → Option (Finset String × ℕ)
  | [] => some (∅, 0)
  | loc :: rest =>
    match r loc with
    | none => none
    | some (s1, w1) =>
      match resolveList r rest with
      | none => none
      | some (s2, w2) => some (s1 ∪ s2, w1 + w2)

/-- Embedding of `get_urls_from_sitemap` (lines 58-82) with an explicit
recursion-depth budget.  A failure yields the empty set and one warning
(the `except` branch); a sitemap index (non-empty `sitemap_tags`)
resolves every child recursively and unions the results; otherwise the
`<url><loc>` entries are collected as a set. -/
def resolveFuel (world : String → SitemapFetch) : ℕ → String → Option (Finset String × ℕ)
  | 0, _ => none
  | fuel + 1, u =>
    match world u with
    | .failure => some (∅, 1)
    | .parsed doc =>
      if doc.sitemapLocs.isEmpty then some (doc.urlLocs.toFinset, 0)
      else resolveList (resolveFuel world fuel) doc.sitemapLocs

/-- A sitemap index whose single entry is its own URL. -/
def selfLoopWorld : String → SitemapFetch :=
  fun _ => SitemapFetch.parsed ⟨["s"], []⟩

/-- C2 fails on the code: `get_urls_from_sitemap` has no depth or
node-count cap, so on a self-referential sitemap index the resolution
completes within no recursion-depth budget at all — the recursion is
unbounded rather than being cut off at a cap with a reported warning.
(In CPython the blanket `except Exception` incidentally catches the
interpreter's `RecursionError`, but no cap of the code's own exists.) -/
theorem c2_no_recursion_cap :
    ∀ fuel : ℕ, resolveFuel selfLoopWorld fuel "s" = none := by
  intro fuel
  induction fuel with
  | zero => rfl
  | succ f ih =>
    show resolveList (resolveFuel selfLoopWorld f) ["s"] = none
    simp [resolveList, ih]

theorem resolveList_of_forall {r : String → Option (Finset String × ℕ)}
    {g : String → Finset String} {wg : String → ℕ} :
    ∀ l : List String, (∀ loc ∈ l, r loc = some (g loc, wg loc)) →
      resolveList r l =
        some (l.foldr (fun loc s => g loc ∪ s) ∅, (l.map wg).sum) := by
  intro l
  induction l with
  | nil => intro _; rfl
  | cons loc rest ih =>
    intro hall
    have hloc := hall loc (by simp)
    have hrest := ih (fun x hx => hall x (by simp [hx]))
    simp [resolveList, hloc, hrest]

/-- C6: a failing sitemap node inside an index is non-fatal.  If the
document at `u` is a sitemap index listing `pre ++ [bad] ++ post`, the
node `bad` fails to fetch or parse, and each sibling resolves to its
URL set with its warning count, then `bad` itself resolves to the empty
set with exactly one reported warning, and the resolution of `u` still
completes, returning the siblings' union (a `Finset`, so duplicate URLs
across the nested sitemaps collapse) and the siblings' warnings plus
the one warning of the failed node. -/
theorem c6_sitemap_failure_nonfatal (world : String → SitemapFetch) (u bad : String)
    (doc : ParsedSitemap) (pre post : List String) (fuel : ℕ)
    (g : String → Finset String) (wg : String → ℕ)
    (hu : world u = SitemapFetch.parsed doc)
    (hlocs : doc.sitemapLocs = pre ++ bad :: post)
    (hbad : world bad = SitemapFetch.failure)
    (hsib : ∀ loc ∈ pre ++ post, resolveFuel world (fuel + 1) loc = some (g loc, wg loc)) :
    resolveFuel world (fuel + 1) bad = some (∅, 1) ∧
      resolveFuel world (fuel + 2) u =
        some ((pre ++ post).foldr (fun loc s => g loc ∪ s) ∅,
          ((pre ++ post).map wg).sum + 1) := by
  have hbadres : resolveFuel world (fuel + 1) bad = some (∅, 1) := by
    show (match world bad with
      | .failure => some (∅, 1)
      | .parsed doc =>
        if doc.sitemapLocs.isEmpty then some (doc.urlLocs.toFinset, 0)
        else resolveList (resolveFuel world fuel) doc.sitemapLocs) = some (∅, 1)
    rw [hbad]
  refine ⟨hbadres, ?_⟩
  have hne : ¬ doc.sitemapLocs.isEmpty = true := by
    rw [hlocs]
    simp
  show (match world u with
    | .failure => some (∅, 1)
    | .parsed doc =>
      if doc.sitemapLocs.isEmpty then some (doc.urlLocs.toFinset, 0)
      else resolveList (resolveFuel world (fuel + 1)) doc.sitemapLocs) = _
  rw [hu]
  simp only [if_neg hne]
  rw [hlocs]
  clear hu hne hlocs
  induction pre with
  | nil =>
    have hpost := resolveList_of_forall post (fun x hx => hsib x (by simp [hx]))
    simp [resolveList, hbadres, hpost, Nat.add_comm]
  | cons p pre0 ih =>
    have hp := hsib p (by simp)
    have hrest := ih (fun x hx => hsib x (by
      rcases List.mem_append.mp hx with h1 | h2
      · simp [h1]
      · simp [h2]))
    simp only [List.cons_append, resolveList, hp]
    simp only [List.append_eq]
    rw [hrest]
    simp [List.foldr_append, List.map_append, Nat.add_assoc]

/-- Concrete sitemap world for the C6 witness: an index at `"root"`
with children `"a"`, `"bad"`, `"b"`; the two good children are flat
sitemaps sharing the URL `"y"`, the middle child fails. -/
def exSitemapWorld : String → SitemapFetch := fun u =>
  if u = "root" then SitemapFetch.parsed ⟨["a", "bad", "b"], []⟩
  else if u = "a" then SitemapFetch.parsed ⟨[], ["x", "y"]⟩
  else if u = "b" then SitemapFetch.parsed ⟨[], ["y", "z"]⟩
  else SitemapFetch.failure

/-- URL sets of the two good children of `exSitemapWorld`. -/
def exSitemapG : String → Finset String := fun loc =>
  if loc = "a" then {"x", "y"} else {"y", "z"}

/-- Witness for C6 at `exSitemapWorld`: the failed middle child yields
the empty set and one warning, and the root still resolves to the union
of the siblings' sets (the shared URL `"y"` collapsing) with that one
warning. -/
theorem c6_sitemap_failure_nonfatal_witness :
    exSitemapWorld "root" = SitemapFetch.parsed ⟨["a", "bad", "b"], []⟩ ∧
      exSitemapWorld "bad" = SitemapFetch.failure ∧
      (∀ loc ∈ ["a"] ++ ["b"],
        resolveFuel exSitemapWorld 1 loc = some (exSitemapG loc, 0)) ∧
      (resolveFuel exSitemapWorld 1 "bad" = some (∅, 1) ∧
        resolveFuel exSitemapWorld 2 "root" =
          some ((["a"] ++ ["b"]).foldr (fun loc s => exSitemapG loc ∪ s) ∅,
            ((["a"] ++ ["b"]).map (fun _ => 0)).sum + 1)) := by
  refine ⟨rfl, rfl, by decide, ?_⟩
  exact c6_sitemap_failure_nonfatal exSitemapWorld "root" "bad" ⟨["a", "bad", "b"], []⟩
    ["a"] ["b"] 0 exSitemapG (fun _ => 0) rfl rfl rfl (by decide)

/-! ## Visible-text extractor (`extract_visible_text`, claim C8)

`BeautifulSoup(html, "html.parser")` produces a node tree; the parse
itself is the library's work, so the model's input is the parsed tree:
text nodes and elements with a tag name and children.  The code then
decomposes every `script`, `style` and `noscript` element (removing the
whole subtree), joins the remaining text nodes with `" "`
(`get_text(separator=" ")`), collapses whitespace runs
(`re.sub(r"\s+", " ", text)`) and strips the ends. -/

/-- A parsed HTML node. -/
inductive HtmlNode where
  | text : List Char → HtmlNode
  | elem : String → List HtmlNode → HtmlNode

/-- Tags whose subtrees `extract_visible_text` decomposes. -/
def invisibleTag (name : String) : Prop :=
  name = "script" ∨ name = "style" ∨ name = "noscript"

instance (name : String) : Decidable (invisibleTag name) :=
  inferInstanceAs (Decidable (name = "script" ∨ name = "style" ∨ name = "noscript"))

/-- The `soup(["script", "style", "noscript"])` decompose pass: remove
every such element (its whole subtree) from the forest. -/
def pruneForest : List HtmlNode → List HtmlNode
  | [] => []
  | .text s :: rest => .text s :: pruneForest rest
  | .elem n cs :: rest =>
    if invisibleTag n then pruneForest rest
    else .elem n (pruneForest cs) :: pruneForest rest

/-- All text-node strings of a forest in document order
(what `get_text` joins with the separator). -/
def textsForest : List HtmlNode → List (List Char)
  | [] => []
  | .text s :: rest => s :: textsForest rest
  | .elem _ cs :: rest => textsForest cs ++ textsForest rest

/-- `soup.get_text(separator=" ")`. -/
def getTextSep (doc : List HtmlNode) : List Char :=
  List.intercalate [' '] (textsForest doc)

theorem length_dropWhile_le_self (p : Char → Bool) :
    ∀ l : List Char, (l.dropWhile p).length ≤ l.length := by
  intro l
  induction l with
  | nil => simp
  | cons a rest ih =>
    by_cases hp : p a
    · rw [List.dropWhile_cons, if_pos hp]
      exact le_trans ih (by simp)
    · rw [List.dropWhile_cons, if_neg hp]

/-- `re.sub(r"\s+", " ", text)`: replace every maximal whitespace run
by one ASCII space. -/
def collapseWs : List Char → List Char
  | [] => []
  | c :: rest =>
    if c.isWhitespace then ' ' :: collapseWs (rest.dropWhile Char.isWhitespace)
    else c :: collapseWs rest
termination_by l => l.length
decreasing_by
  all_goals simp_wf
  all_goals
    have := length_dropWhile_le_self Char.isWhitespace rest
    omega

/-- Embedding of `extract_visible_text` (lines 136-145). -/
def extract_visible_text (doc : List HtmlNode) : List Char :=
  stripChars (collapseWs (getTextSep (pruneForest doc)))

theorem collapseWs_nil : collapseWs [] = [] := by
  rw [collapseWs]

theorem collapseWs_cons (c : Char) (rest : List Char) :
    collapseWs (c :: rest) =
      if c.isWhitespace then ' ' :: collapseWs (rest.dropWhile Char.isWhitespace)
      else c :: collapseWs rest := by
  rw [collapseWs]

theorem pruneForest_nil : pruneForest [] = [] := by
  rw [pruneForest]

theorem pruneForest_text (s : List Char) (rest : List HtmlNode) :
    pruneForest (HtmlNode.text s :: rest) = HtmlNode.text s :: pruneForest rest := by
  rw [pruneForest]

theorem pruneForest_elem (n : String) (cs rest : List HtmlNode) :
    pruneForest (HtmlNode.elem n cs :: rest) =
      if invisibleTag n then pruneForest rest
      else HtmlNode.elem n (pruneForest cs) :: pruneForest rest := by
  rw [pruneForest]

theorem pruneForest_append : ∀ (l1 l2 : List HtmlNode),
    pruneForest (l1 ++ l2) = pruneForest l1 ++ pruneForest l2 := by
  intro l1
  induction l1 with
  | nil => intro l2; simp [pruneForest_nil]
  | cons x rest ih =>
    intro l2
    cases x with
    | text s => rw [List.cons_append, pruneForest_text, pruneForest_text, ih, List.cons_append]
    | elem n cs =>
      rw [List.cons_append, pruneForest_elem, pruneForest_elem]
      by_cases hn : invisibleTag n
      · rw [if_pos hn, if_pos hn, ih]
      · rw [if_neg hn, if_neg hn, ih, List.cons_append]

theorem head?_dropWhile_not (p : Char → Bool) :
    ∀ (l : List Char) {c : Char}, (l.dropWhile p).head? = some c → p c = false := by
  intro l
  induction l with
  | nil => intro c h; simp at h
  | cons a rest ih =>
    intro c h
    by_cases hp : p a
    · rw [List.dropWhile_cons, if_pos hp] at h
      exact ih h
    · rw [List.dropWhile_cons, if_neg hp] at h
      simp only [List.head?_cons] at h
      have hac : a = c := Option.some.inj h
      rw [← hac]
      simpa using hp

theorem collapseWs_ws_space : ∀ (l : List Char), ∀ c ∈ collapseWs l,
    c.isWhitespace = true → c = ' ' := by
  intro l
  induction l using collapseWs.induct with
  | case1 => intro c hc; rw [collapseWs_nil] at hc; simp at hc
  | case2 a rest hws ih =>
    intro c hc hcw
    rw [collapseWs_cons, if_pos hws] at hc
    rcases List.mem_cons.mp hc with h1 | h2
    · exact h1
    · exact ih c h2 hcw
  | case3 a rest hws ih =>
    intro c hc hcw
    rw [collapseWs_cons, if_neg hws] at hc
    rcases List.mem_cons.mp hc with h1 | h2
    · subst h1; exact absurd hcw (by simpa using hws)
    · exact ih c h2 hcw

theorem collapseWs_dropWhile_head (rest : List Char) {b : Char}
    (h : (collapseWs (rest.dropWhile Char.isWhitespace)).head? = some b) :
    b.isWhitespace = false := by
  cases hd : rest.dropWhile Char.isWhitespace with
  | nil => rw [hd, collapseWs_nil] at h; simp at h
  | cons a as =>
    have ha : Char.isWhitespace a = false := by
      have hh : (rest.dropWhile Char.isWhitespace).head? = some a := by rw [hd]; rfl
      exact head?_dropWhile_not Char.isWhitespace rest hh
    rw [hd, collapseWs_cons, if_neg (by simp [ha])] at h
    simp only [List.head?_cons] at h
    rw [← Option.some.inj h]
    exact ha

theorem collapseWs_chain (l : List Char) :
    (collapseWs l).Chain' (fun a b => ¬(a.isWhitespace = true ∧ b.isWhitespace = true)) := by
  induction l using collapseWs.induct with
  | case1 => rw [collapseWs_nil]; simp
  | case2 a rest hws ih =>
    rw [collapseWs_cons, if_pos hws, List.chain'_cons']
    refine ⟨?_, ih⟩
    intro b hb hcontra
    have hbw : b.isWhitespace = false :=
      collapseWs_dropWhile_head rest (Option.mem_def.mp hb)
    rw [hbw] at hcontra
    exact absurd hcontra.2 (by simp)
  | case3 a rest hws ih =>
    rw [collapseWs_cons, if_neg hws, List.chain'_cons']
    refine ⟨?_, ih⟩
    intro b hb hcontra
    exact hws hcontra.1

theorem stripChars_eq_rdrop (l : List Char) :
    stripChars l = (l.dropWhile Char.isWhitespace).rdropWhile Char.isWhitespace := by
  simp [stripChars, List.rdropWhile]

theorem stripChars_middle (l : List Char) :
    ∃ s t, s ++ stripChars l ++ t = l := by
  rw [stripChars_eq_rdrop]
  have hpref := List.rdropWhile_prefix Char.isWhitespace (l.dropWhile Char.isWhitespace)
  obtain ⟨t1, ht1⟩ := hpref
  have hsuf : l.dropWhile Char.isWhitespace <:+ l := List.dropWhile_suffix _
  obtain ⟨t2, ht2⟩ := hsuf
  exact ⟨t2, t1, by rw [List.append_assoc, ht1, ht2]⟩

theorem chain'_of_middle {R : Char → Char → Prop} (s a t : List Char)
    (h : List.Chain' R (s ++ a ++ t)) : a.Chain' R := by
  rw [List.append_assoc] at h
  have h1 := (List.chain'_append.mp h).2.1
  exact (List.chain'_append.mp h1).1

theorem stripChars_head {l : List Char} {c : Char}
    (h : (stripChars l).head? = some c) : c.isWhitespace = false := by
  rw [stripChars_eq_rdrop] at h
  have hpref := List.rdropWhile_prefix Char.isWhitespace (l.dropWhile Char.isWhitespace)
  obtain ⟨t1, ht1⟩ := hpref
  have hm : (l.dropWhile Char.isWhitespace).head? = some c := by
    rw [← ht1]
    cases hr : (l.dropWhile Char.isWhitespace).rdropWhile Char.isWhitespace with
    | nil => rw [hr] at h; simp at h
    | cons x xs =>
      rw [hr] at h
      simp only [List.head?_cons] at h
      rw [List.cons_append]
      simpa using h
  exact head?_dropWhile_not Char.isWhitespace l hm

theorem stripChars_last {l : List Char} {c : Char}
    (h : (stripChars l).getLast? = some c) : c.isWhitespace = false := by
  rw [stripChars_eq_rdrop] at h
  obtain ⟨hne, hc⟩ := List.mem_getLast?_eq_getLast (Option.mem_def.mpr h)
  have hlast := List.rdropWhile_last_not Char.isWhitespace
    (l.dropWhile Char.isWhitespace) hne
  rw [hc]
  simpa using hlast

/-- C8: the extractor is a pure function of the parsed tree whose
output (i) does not depend on the textual content of `script`, `style`
or `noscript` subtrees — replacing the children of such an element with
anything else leaves the output unchanged, because the whole subtree is
decomposed before text is collected — and (ii) is whitespace-normal:
every whitespace character of the output is an ASCII space, no two
adjacent characters are both whitespace (every run was collapsed to one
space), and the output neither starts nor ends with whitespace. -/
theorem c8_extractor_invisible_and_normalized :
    (∀ (pre post cs cs' : List HtmlNode) (name : String), invisibleTag name →
      extract_visible_text (pre ++ HtmlNode.elem name cs :: post) =
        extract_visible_text (pre ++ HtmlNode.elem name cs' :: post)) ∧
    (∀ doc : List HtmlNode,
      (∀ c ∈ extract_visible_text doc, c.isWhitespace = true → c = ' ') ∧
      (extract_visible_text doc).Chain'
        (fun a b => ¬(a.isWhitespace = true ∧ b.isWhitespace = true)) ∧
      (∀ c, (extract_visible_text doc).head? = some c → c.isWhitespace = false) ∧
      (∀ c, (extract_visible_text doc).getLast? = some c → c.isWhitespace = false)) := by
  constructor
  · intro pre post cs cs' name hinv
    unfold extract_visible_text
    rw [pruneForest_append, pruneForest_append, pruneForest_elem, pruneForest_elem,
      if_pos hinv, if_pos hinv]
  · intro doc
    refine ⟨?_, ?_, ?_, ?_⟩
    · intro c hc hcw
      obtain ⟨s, t, hst⟩ := stripChars_middle (collapseWs (getTextSep (pruneForest doc)))
      have hmem : c ∈ collapseWs (getTextSep (pruneForest doc)) := by
        rw [← hst]
        simp [extract_visible_text] at hc
        simp [hc]
      exact collapseWs_ws_space _ c hmem hcw
    · obtain ⟨s, t, hst⟩ := stripChars_middle (collapseWs (getTextSep (pruneForest doc)))
      have hch := collapseWs_chain (getTextSep (pruneForest doc))
      rw [← hst] at hch
      exact chain'_of_middle s _ t hch
    · intro c hc
      exact stripChars_head hc
    · intro c hc
      exact stripChars_last hc

/-- Witness for C8 at a concrete input: a forest with a text node, a
script element and another text node; swapping the script content
leaves the extracted text unchanged, and the extractor's output on the
first forest satisfies all the whitespace-normalization conjuncts. -/
theorem c8_extractor_invisible_and_normalized_witness :
    invisibleTag "script" ∧
      extract_visible_text
          ([HtmlNode.text [' ', 'H', 'i', '\n']] ++
            HtmlNode.elem "script" [HtmlNode.text ['S', 'E', 'C']] ::
              [HtmlNode.text ['\t', 'u', ' ']]) =
        extract_visible_text
          ([HtmlNode.text [' ', 'H', 'i', '\n']] ++
            HtmlNode.elem "script" [HtmlNode.text ['O', 'T', 'H']] ::
              [HtmlNode.text ['\t', 'u', ' ']]) := by
  refine ⟨Or.inl rfl, ?_⟩
  exact c8_extractor_invisible_and_normalized.1
    [HtmlNode.text [' ', 'H', 'i', '\n']] [HtmlNode.text ['\t', 'u', ' ']]
    [HtmlNode.text ['S', 'E', 'C']] [HtmlNode.text ['O', 'T', 'H']] "script" (Or.inl rfl)

/-! ## URL filter and crawler (`crawl_site`, claims C1, C3, C7)

URLs are modelled as parsed values (`urlparse` results): scheme, host
(`netloc`), path and fragment; `geturl` renders the string the code
passes to `should_skip_url` and stores in its seen-set (the rendering is
injective, so sets of parsed URLs and sets of rendered strings
correspond).  An anchor's `href` is either a pure in-page fragment link
(`href.startswith("#")`) or, after `urljoin` (a library call, modelled
as already resolved), an absolute URL.  The world maps a URL to `none`
when `fetch_html` returned `None` or an empty body (both make
`if not html` continue) and otherwise to the list of `href`s of its
anchors.  `time.sleep(delay)` is modelled as an emitted event, so the
loop records a trace: pops, seen-set insertions, fetch calls, frontier
appends and sleeps, in code order. -/

/-- A parsed URL. -/
structure Url where
  scheme : String
  netloc : String
  path : String
  fragment : String
deriving DecidableEq

/-- `parsed._replace(fragment="")`: the deduplication identity. -/
def stripFrag (u : Url) : Url := { u with fragment := "" }

/-- `geturl`: render the parsed URL back to a string. -/
def geturl (u : Url) : String :=
  u.scheme ++ "://" ++ u.netloc ++ u.path ++
    (if u.fragment = "" then "" else "#" ++ u.fragment)

/-- The denylist of lines 25-30. -/
def EXCLUDE_PATTERNS : List String :=
  [".pdf", ".jpg", ".jpeg", ".png", ".gif", ".svg", ".webp",
   ".css", ".js", ".ico",
   "/wp-admin", "/wp-login",
   "mailto:", "tel:"]

/-- Embedding of `should_skip_url` (lines 33-35): some pattern occurs in
the lowercased URL string. -/
def should_skip_url (url : String) : Bool :=
  EXCLUDE_PATTERNS.any (fun pat => hasSub pat.toList (lowerList url.toList))

/-- Embedding of `is_internal_url` (lines 16-22): relative (no host) or
host exactly the root domain. -/
def is_internal_url (u : Url) (rootDomain : String) : Bool :=
  u.netloc = "" || u.netloc = rootDomain

/-- An anchor's `href` after `.strip()`: a pure in-page fragment link,
or an absolute URL (the result of `urljoin(current, href)`, which the
model treats as already resolved since `urljoin` is a library call). -/
inductive Href where
  | fragLink : String → Href
  | absLink : Url → Href

/-- The `for a in soup.find_all("a", href=True)` body (lines 113-126):
drop fragment links, drop external links, strip the fragment, and keep
the result when it is neither seen nor skip-matched.  Duplicates within
one page are kept — each is appended to the frontier. -/
def linkTargets (rootDomain : String) (seen : Finset Url) (hrefs : List Href) : List Url :=
  hrefs.filterMap fun h =>
    match h with
    | Href.fragLink _ => none
    | Href.absLink u =>
      if ¬ is_internal_url u rootDomain then none
      else
        let normalized := stripFrag u
        if normalized ∈ seen ∨ should_skip_url (geturl normalized) then none
        else some normalized

/-- One observable event of the crawl loop, in code order per
iteration: the pop, the seen-set insertion, the `fetch_html` call, the
frontier appends, the `time.sleep(delay)`. -/
inductive CrawlEvent where
  | popEv : Url → CrawlEvent
  | seenEv : Url → CrawlEvent
  | fetchEv : Url → CrawlEvent
  | appendEv : Url → CrawlEvent
  | sleepEv : CrawlEvent
deriving DecidableEq

/-- The crawl loop's state: the frontier, the seen-set, the result set
`all_urls`, and the trace of events so far. -/
structure CrawlState where
  toVisit : List Url
  seen : Finset Url
  allUrls : Finset Url
  events : List CrawlEvent
deriving DecidableEq

/-- One iteration of the `while to_visit and len(seen) < max_pages`
loop (lines 94-128); `none` when the loop condition fails. -/
def crawlStep (world : Url → Option (List Href)) (rootDomain : String) (maxPages : ℕ)
    (st : CrawlState) : Option CrawlState :=
  match st.toVisit with
  | [] => none
  | current :: rest =>
    if st.seen.card < maxPages then
      if current ∈ st.seen then
        some { st with toVisit := rest, events := st.events ++ [CrawlEvent.popEv current] }
      else
        let seen' := insert current st.seen
        if should_skip_url (geturl current) then
          some { toVisit := rest, seen := seen', allUrls := st.allUrls,
                 events := st.events ++ [CrawlEvent.popEv current, CrawlEvent.seenEv current] }
        else
          match world current with
          | none =>
            some { toVisit := rest, seen := seen', allUrls := st.allUrls,
                   events := st.events ++ [CrawlEvent.popEv current,
                     CrawlEvent.seenEv current, CrawlEvent.fetchEv current] }
          | some hrefs =>
            let newLinks := linkTargets rootDomain seen' hrefs
            some { toVisit := rest ++ newLinks, seen := seen',
                   allUrls := insert current st.allUrls,
                   events := st.events ++ [CrawlEvent.popEv current,
                     CrawlEvent.seenEv current, CrawlEvent.fetchEv current] ++
                     newLinks.map CrawlEvent.appendEv ++ [CrawlEvent.sleepEv] }
    else none

theorem crawlStep_decreases {world : Url → Option (List Href)} {rootDomain : String}
    {maxPages : ℕ} {st st' : CrawlState}
    (h : crawlStep world rootDomain maxPages st = some st') :
    Prod.Lex (· < ·) (· < ·) (maxPages - st'.seen.card, st'.toVisit.length)
      (maxPages - st.seen.card, st.toVisit.length) := by
  unfold crawlStep at h
  split at h
  · exact absurd h (by simp)
  · rename_i current rest hv
    split_ifs at h with hlt hseen hskip
    · cases h
      apply Prod.Lex.right
      simp [hv]
    · cases h
      apply Prod.Lex.left
      have := Finset.card_insert_of_not_mem hseen
      simp only [this]
      omega
    · split at h
      · cases h
        apply Prod.Lex.left
        have := Finset.card_insert_of_not_mem hseen
        simp only [this]
        omega
      · cases h
        apply Prod.Lex.left
        have := Finset.card_insert_of_not_mem hseen
        simp only [this]
        omega

/-- The whole `while` loop (lines 94-128), defined by well-founded
recursion on the pair (remaining page budget, frontier length): every
iteration either inserts a fresh URL into the seen-set, shrinking the
remaining budget `maxPages - |seen|`, or drops an already-seen URL from
the frontier without touching the seen-set.  This is the termination
argument of claim C1. -/
def crawlLoop (world : Url → Option (List Href)) (rootDomain : String) (maxPages : ℕ)
    (st : CrawlState) : CrawlState :=
  match h : crawlStep world rootDomain maxPages st with
  | none => st
  | some st' => crawlLoop world rootDomain maxPages st'
termination_by (maxPages - st.seen.card, st.toVisit.length)
decreasing_by
  exact crawlStep_decreases h

/-- Embedding of `crawl_site` (lines 85-133): root domain fixed from
the start URL, frontier seeded with the start URL as given (not
normalized), seen-set and result set empty.  The returned state carries
`all_urls` (the function's return value) plus the trace. -/
def crawl_site (world : Url → Option (List Href)) (start : Url) (maxPages : ℕ) :
    CrawlState :=
  crawlLoop world start.netloc maxPages ⟨[start], ∅, ∅, []⟩

theorem crawlLoop_of_none {world : Url → Option (List Href)} {rootDomain : String}
    {maxPages : ℕ} {st : CrawlState}
    (h : crawlStep world rootDomain maxPages st = none) :
    crawlLoop world rootDomain maxPages st = st := by
  rw [crawlLoop]
  split
  · rfl
  · rename_i st' heq
    rw [h] at heq
    exact absurd heq (by simp)

theorem crawlLoop_of_some {world : Url → Option (List Href)} {rootDomain : String}
    {maxPages : ℕ} {st st' : CrawlState}
    (h : crawlStep world rootDomain maxPages st = some st') :
    crawlLoop world rootDomain maxPages st =
      crawlLoop world rootDomain maxPages st' := by
  rw [crawlLoop]
  split
  · rename_i heq
    rw [h] at heq
    exact absurd heq (by simp)
  · rename_i st2 heq
    rw [h] at heq
    rw [Option.some.inj heq]

/-- An invariant preserved by every iteration holds at the loop's
result. -/
theorem crawlLoop_preserves {world : Url → Option (List Href)} {rootDomain : String}
    {maxPages : ℕ} {P : CrawlState → Prop}
    (hstep : ∀ s s', crawlStep world rootDomain maxPages s = some s' → P s → P s') :
    ∀ st, P st → P (crawlLoop world rootDomain maxPages st) := by
  intro st
  induction st using crawlLoop.induct world rootDomain maxPages with
  | case1 st hnone =>
    intro hP
    rw [crawlLoop_of_none hnone]
    exact hP
  | case2 st st' hsome ih =>
    intro hP
    rw [crawlLoop_of_some hsome]
    exact ih (hstep st st' hsome hP)

/-- The loop with an explicit iteration budget; `none` when the budget
is exhausted before the loop condition fails. -/
def crawlLoopF (world : Url → Option (List Href)) (rootDomain : String) (maxPages : ℕ) :
    ℕ → CrawlState → Option CrawlState
  | 0, _ => none
  | fuel + 1, st =>
    match crawlStep world rootDomain maxPages st with
    | none => some st
    | some st' => crawlLoopF world rootDomain maxPages fuel st'

theorem crawlLoopF_sound {world : Url → Option (List Href)} {rootDomain : String}
    {maxPages : ℕ} :
    ∀ (fuel : ℕ) (st out : CrawlState),
      crawlLoopF world rootDomain maxPages fuel st = some out →
      crawlLoop world rootDomain maxPages st = out := by
  intro fuel
  induction fuel with
  | zero => intro st out h; exact absurd h (by simp [crawlLoopF])
  | succ f ih =>
    intro st out h
    cases hstep : crawlStep world rootDomain maxPages st with
    | none =>
      rw [crawlLoopF, hstep] at h
      rw [crawlLoop_of_none hstep]
      exact Option.some.inj h
    | some st' =>
      rw [crawlLoopF, hstep] at h
      rw [crawlLoop_of_some hstep]
      exact ih st' out h

/-- The loop condition fails after finitely many iterations: some
iteration budget reproduces the loop's result.  This is the
explicit-termination half of claim C1. -/
theorem crawlLoop_terminates {world : Url → Option (List Href)} {rootDomain : String}
    {maxPages : ℕ} :
    ∀ st : CrawlState, ∃ fuel : ℕ,
      crawlLoopF world rootDomain maxPages fuel st =
        some (crawlLoop world rootDomain maxPages st) := by
  intro st
  induction st using crawlLoop.induct world rootDomain maxPages with
  | case1 st hnone =>
    refine ⟨1, ?_⟩
    rw [crawlLoopF, hnone, crawlLoop_of_none hnone]
  | case2 st st' hsome ih =>
    obtain ⟨f, hf⟩ := ih
    refine ⟨f + 1, ?_⟩
    have hstepF : crawlLoopF world rootDomain maxPages (f + 1) st =
        crawlLoopF world rootDomain maxPages f st' := by
      rw [crawlLoopF, hsome]
    rw [hstepF, hf, crawlLoop_of_some hsome]

/-! ## Crawl-trace observations -/

/-- Number of `time.sleep` calls in a trace. -/
def countSleep (evs : List CrawlEvent) : ℕ :=
  (evs.filter fun e => match e with | CrawlEvent.sleepEv => true | _ => false).length

/-- Number of loop iterations (pops) in a trace. -/
def countPop (evs : List CrawlEvent) : ℕ :=
  (evs.filter fun e => match e with | CrawlEvent.popEv _ => true | _ => false).length

/-- The URLs passed to `fetch_html`, in call order. -/
def fetchedUrls (evs : List CrawlEvent) : List Url :=
  evs.filterMap fun e => match e with | CrawlEvent.fetchEv u => some u | _ => none

theorem linkTargets_mem {rootDomain : String} {seen : Finset Url} {hrefs : List Href} :
    ∀ v ∈ linkTargets rootDomain seen hrefs,
      v ∉ seen ∧ v.fragment = "" ∧ should_skip_url (geturl v) = false := by
  intro v hv
  obtain ⟨h, _, hf⟩ := List.mem_filterMap.mp hv
  cases h with
  | fragLink s => simp at hf
  | absLink u =>
    simp only at hf
    by_cases h1 : is_internal_url u rootDomain = true
    · rw [if_neg (not_not_intro h1)] at hf
      by_cases h2 : stripFrag u ∈ seen ∨ should_skip_url (geturl (stripFrag u)) = true
      · rw [if_pos h2] at hf
        simp at hf
      · rw [if_neg h2] at hf
        push_neg at h2
        have hveq : v = stripFrag u := (Option.some.inj hf).symm
        subst hveq
        refine ⟨h2.1, rfl, ?_⟩
        simpa using h2.2
    · rw [if_pos (by simpa using h1)] at hf
      simp at hf

/-- The iteration-level invariant behind claim C1: the result set is
inside the seen-set, the seen-set respects the budget, and every
result-set member was neither skip-matched nor a failed fetch. -/
def InvC1 (world : Url → Option (List Href)) (maxPages : ℕ) (st : CrawlState) : Prop :=
  st.allUrls ⊆ st.seen ∧ st.seen.card ≤ maxPages ∧
    ∀ u ∈ st.allUrls, should_skip_url (geturl u) = false ∧ world u ≠ none

theorem crawlStep_invC1 {world : Url → Option (List Href)} {rootDomain : String}
    {maxPages : ℕ} :
    ∀ s s', crawlStep world rootDomain maxPages s = some s' →
      InvC1 world maxPages s → InvC1 world maxPages s' := by
  intro s s' h hP
  obtain ⟨h1, h2, h3⟩ := hP
  unfold crawlStep at h
  split at h
  · exact absurd h (by simp)
  · rename_i current rest hv
    split_ifs at h with hlt hseen hskip
    · cases h
      exact ⟨h1, h2, h3⟩
    · cases h
      refine ⟨Finset.Subset.trans h1 (Finset.subset_insert current s.seen), ?_, h3⟩
      rw [Finset.card_insert_of_not_mem hseen]
      omega
    · split at h
      · cases h
        refine ⟨Finset.Subset.trans h1 (Finset.subset_insert current s.seen), ?_, h3⟩
        rw [Finset.card_insert_of_not_mem hseen]
        omega
      · rename_i hrefs hw
        cases h
        refine ⟨Finset.insert_subset_insert current h1, ?_, ?_⟩
        · rw [Finset.card_insert_of_not_mem hseen]
          omega
        · intro u hu
          rcases Finset.mem_insert.mp hu with hcur | hold
          · subst hcur
            exact ⟨by simpa using hskip, by simp [hw]⟩
          · exact h3 u hold

/-- C1: for every page budget `maxPages`, start URL and page world, the
crawl loop terminates — its result is reached within some finite
iteration budget (the loop itself is defined by well-founded recursion
on the pair (remaining budget, frontier length), which is the
termination argument even on cyclic page graphs) — and the returned
`all_urls` set has size at most `maxPages`, is a subset of the seen-set
built during the loop, and contains no URL that was skip-matched or
whose fetch failed, even though such URLs were marked seen and consumed
budget. -/
theorem c1_crawl_budget_invariant (world : Url → Option (List Href)) (start : Url)
    (maxPages : ℕ) :
    (∃ fuel, crawlLoopF world start.netloc maxPages fuel ⟨[start], ∅, ∅, []⟩ =
      some (crawl_site world start maxPages)) ∧
    (crawl_site world start maxPages).allUrls.card ≤ maxPages ∧
    (crawl_site world start maxPages).allUrls ⊆ (crawl_site world start maxPages).seen ∧
    (∀ u ∈ (crawl_site world start maxPages).allUrls,
      should_skip_url (geturl u) = false ∧ world u ≠ none) := by
  have hinit : InvC1 world maxPages ⟨[start], ∅, ∅, []⟩ := by
    refine ⟨by simp, by simp, by simp⟩
  have hfinal : InvC1 world maxPages (crawl_site world start maxPages) :=
    crawlLoop_preserves crawlStep_invC1 _ hinit
  obtain ⟨hsub, hcard, hmem⟩ := hfinal
  exact ⟨crawlLoop_terminates _, le_trans (Finset.card_le_card hsub) hcard, hsub, hmem⟩

/-! ## Sleeping (claim C3) -/

theorem countSleep_append (l₁ l₂ : List CrawlEvent) :
    countSleep (l₁ ++ l₂) = countSleep l₁ + countSleep l₂ := by
  simp [countSleep, List.filter_append]

theorem countSleep_appendEvs (links : List Url) :
    countSleep (links.map CrawlEvent.appendEv) = 0 := by
  induction links with
  | nil => rfl
  | cons v rest ih => simp [countSleep, List.filter]

/-- Invariant: sleeps happen exactly once per URL added to the result
set. -/
def InvSleep (st : CrawlState) : Prop :=
  countSleep st.events = st.allUrls.card ∧ st.allUrls ⊆ st.seen

theorem crawlStep_invSleep {world : Url → Option (List Href)} {rootDomain : String}
    {maxPages : ℕ} :
    ∀ s s', crawlStep world rootDomain maxPages s = some s' →
      InvSleep s → InvSleep s' := by
  intro s s' h hP
  obtain ⟨h1, h2⟩ := hP
  unfold crawlStep at h
  split at h
  · exact absurd h (by simp)
  · rename_i current rest hv
    split_ifs at h with hlt hseen hskip
    · cases h
      refine ⟨?_, h2⟩
      have hz : countSleep [CrawlEvent.popEv current] = 0 := rfl
      rw [countSleep_append, hz, Nat.add_zero]
      exact h1
    · cases h
      refine ⟨?_, Finset.Subset.trans h2 (Finset.subset_insert current s.seen)⟩
      have hz : countSleep [CrawlEvent.popEv current, CrawlEvent.seenEv current] = 0 := rfl
      rw [countSleep_append, hz, Nat.add_zero]
      exact h1
    · split at h
      · cases h
        refine ⟨?_, Finset.Subset.trans h2 (Finset.subset_insert current s.seen)⟩
        have hz : countSleep [CrawlEvent.popEv current, CrawlEvent.seenEv current,
          CrawlEvent.fetchEv current] = 0 := rfl
        rw [countSleep_append, hz, Nat.add_zero]
        exact h1
      · rename_i hrefs hw
        cases h
        have hnotin : current ∉ s.allUrls := fun hc => hseen (h2 hc)
        constructor
        · have hb : countSleep
              ([CrawlEvent.popEv current, CrawlEvent.seenEv current,
                CrawlEvent.fetchEv current] ++
                (List.map CrawlEvent.appendEv
                  (linkTargets rootDomain (insert current s.seen) hrefs) ++
                  [CrawlEvent.sleepEv])) = 1 := by
            rw [countSleep_append, countSleep_append, countSleep_appendEvs]
            rfl
          rw [List.append_assoc, List.append_assoc, countSleep_append, hb,
            Finset.card_insert_of_not_mem hnotin, h1]
        · exact Finset.insert_subset_insert current h2

/-- C3 amended: the crawl loop sleeps exactly once per iteration that
reaches the successful-fetch branch — equivalently, once per URL in the
returned result set.  Iterations that discard an already-seen URL, a
skip-matched URL, or a failed fetch `continue` past the `time.sleep`
call and do not sleep. -/
theorem c3_amended_sleep_once_per_fetched_page (world : Url → Option (List Href))
    (start : Url) (maxPages : ℕ) :
    countSleep (crawl_site world start maxPages).events =
      (crawl_site world start maxPages).allUrls.card := by
  have hinit : InvSleep ⟨[start], ∅, ∅, []⟩ := ⟨rfl, by simp⟩
  exact (crawlLoop_preserves crawlStep_invSleep _ hinit).1

/-- Concrete world for the C3 and C7 counterexamples: page `/a` links
twice to `/b`, whose fetch fails. -/
def exUrlA : Url := ⟨"https", "site.com", "/a", ""⟩

/-- Page `/b` of the counterexample world. -/
def exUrlB : Url := ⟨"https", "site.com", "/b", ""⟩

/-- World of the C3 counterexample. -/
def exWorld3 : Url → Option (List Href) := fun u =>
  if u = exUrlA then some [Href.absLink exUrlB, Href.absLink exUrlB] else none

/-- The final state of the C3 counterexample run (three iterations: a
successful fetch of `/a` that sleeps, a failed fetch of `/b` that does
not, and a dedup-discard of the second `/b` that does not). -/
def exFinal3 : CrawlState :=
  ⟨[], insert exUrlB (insert exUrlA ∅), insert exUrlA ∅,
    [CrawlEvent.popEv exUrlA, CrawlEvent.seenEv exUrlA, CrawlEvent.fetchEv exUrlA,
     CrawlEvent.appendEv exUrlB, CrawlEvent.appendEv exUrlB, CrawlEvent.sleepEv,
     CrawlEvent.popEv exUrlB, CrawlEvent.seenEv exUrlB, CrawlEvent.fetchEv exUrlB,
     CrawlEvent.popEv exUrlB]⟩

theorem exRun3 : crawl_site exWorld3 exUrlA 5 = exFinal3 :=
  crawlLoopF_sound 10 ⟨[exUrlA], ∅, ∅, []⟩ exFinal3 (by decide)

/-- C3 fails on the code: the `continue` statements of the dedup,
skip and failed-fetch paths jump past the `time.sleep(delay)` at the
bottom of the loop, so not every iteration sleeps.  In the concrete run
of `exWorld3` there are three iterations (pops) but only one sleep. -/
theorem c3_counterexample_continue_skips_sleep :
    countSleep (crawl_site exWorld3 exUrlA 5).events ≠
      countPop (crawl_site exWorld3 exUrlA 5).events := by
  rw [exRun3]
  decide

/-! ## Deduplication (claim C7) -/

/-- No URL is appended to the frontier at a point of the trace after it
was inserted into the seen-set. -/
def PairP (evs : List CrawlEvent) : Prop :=
  ∀ l₁ l₂ u v, evs = l₁ ++ CrawlEvent.seenEv u :: l₂ →
    CrawlEvent.appendEv v ∈ l₂ → v ≠ u

theorem stripFrag_eq_self {u : Url} (h : u.fragment = "") : stripFrag u = u := by
  cases u
  simp only [stripFrag]
  simp_all

theorem map_stripFrag_self : ∀ l : List Url, (∀ x ∈ l, x.fragment = "") →
    l.map stripFrag = l := by
  intro l
  induction l with
  | nil => intro _; rfl
  | cons x rest ih =>
    intro h
    rw [List.map_cons, stripFrag_eq_self (h x (by simp)), ih (fun y hy => h y (by simp [hy]))]

theorem fetchedUrls_append (l₁ l₂ : List CrawlEvent) :
    fetchedUrls (l₁ ++ l₂) = fetchedUrls l₁ ++ fetchedUrls l₂ := by
  simp [fetchedUrls, List.filterMap_append]

theorem fetchedUrls_appendEvs (links : List Url) :
    fetchedUrls (links.map CrawlEvent.appendEv) = [] := by
  induction links with
  | nil => rfl
  | cons v rest ih => simp [fetchedUrls, List.filterMap]

theorem pairP_extend {evs block : List CrawlEvent} {S : Finset Url}
    (h : PairP evs)
    (hseenS : ∀ u, CrawlEvent.seenEv u ∈ evs → u ∈ S)
    (hcross : ∀ v, CrawlEvent.appendEv v ∈ block → v ∉ S)
    (hin : ∀ u v, CrawlEvent.seenEv u ∈ block → CrawlEvent.appendEv v ∈ block → v ≠ u) :
    PairP (evs ++ block) := by
  intro l₁ l₂ u v heq hv
  rcases List.append_eq_append_iff.mp heq with ⟨a2, _, ha2⟩ | ⟨c2, hc1, hc2⟩
  · have hseenb : CrawlEvent.seenEv u ∈ block := by rw [ha2]; simp
    have happb : CrawlEvent.appendEv v ∈ block := by rw [ha2]; simp [hv]
    exact hin u v hseenb happb
  · cases c2 with
    | nil =>
      simp only [List.nil_append] at hc2
      have hseenb : CrawlEvent.seenEv u ∈ block := by rw [← hc2]; simp
      have happb : CrawlEvent.appendEv v ∈ block := by rw [← hc2]; simp [hv]
      exact hin u v hseenb happb
    | cons e c3 =>
      rw [List.cons_append] at hc2
      injection hc2 with he1 he2
      subst he1
      rcases List.mem_append.mp (he2 ▸ hv) with hcm | hbm
      · exact h l₁ c3 u v (by rw [hc1]) hcm
      · have hu : CrawlEvent.seenEv u ∈ evs := by rw [hc1]; simp
        intro hvu
        exact hcross v hbm (hvu ▸ hseenS u hu)

/-- The trace invariant behind claim C7: with a fragment-free seed,
everything in the seen-set and frontier is fragment-free, every
seen-event is reflected in the seen-set, every appended URL is
fragment-free (it was normalized), no URL is fetched twice, every
fetched URL is in the seen-set, and no URL is appended after its
seen-event. -/
def InvTrace (st : CrawlState) : Prop :=
  (∀ u ∈ st.seen, u.fragment = "") ∧
  (∀ u ∈ st.toVisit, u.fragment = "") ∧
  (∀ u, CrawlEvent.seenEv u ∈ st.events → u ∈ st.seen) ∧
  (∀ v, CrawlEvent.appendEv v ∈ st.events → v.fragment = "") ∧
  (fetchedUrls st.events).Nodup ∧
  (∀ u ∈ fetchedUrls st.events, u ∈ st.seen) ∧
  PairP st.events


theorem seenEv_notin_appendEvs {links : List Url} {u : Url} :
    CrawlEvent.seenEv u ∉ links.map CrawlEvent.appendEv := by
  intro h
  obtain ⟨x, _, hx⟩ := List.mem_map.mp h
  exact absurd hx (by simp)

theorem appendEv_mem_appendEvs {links : List Url} {v : Url}
    (h : CrawlEvent.appendEv v ∈ links.map CrawlEvent.appendEv) : v ∈ links := by
  obtain ⟨x, hx1, hx2⟩ := List.mem_map.mp h
  have hxv : x = v := by simpa using hx2
  exact hxv ▸ hx1

theorem crawlStep_invTrace {world : Url → Option (List Href)} {rootDomain : String}
    {maxPages : ℕ} :
    ∀ s s', crawlStep world rootDomain maxPages s = some s' →
      InvTrace s → InvTrace s' := by
  intro s s' h hP
  obtain ⟨i1, i2, i3, i4, i5, i6, i7⟩ := hP
  unfold crawlStep at h
  split at h
  · exact absurd h (by simp)
  · rename_i current rest hv
    have hcur : current ∈ s.toVisit := by rw [hv]; simp
    have hrest : ∀ u ∈ rest, u ∈ s.toVisit := by intro u hu; rw [hv]; simp [hu]
    split_ifs at h with hlt hseen hskip
    · -- already seen: pop only
      cases h
      have hfb : fetchedUrls [CrawlEvent.popEv current] = ([] : List Url) := rfl
      refine ⟨i1, fun u hu => i2 u (hrest u hu), ?_, ?_, ?_, ?_, ?_⟩
      · intro u hu
        rcases List.mem_append.mp hu with ho | hb
        · exact i3 u ho
        · simp at hb
      · intro v hvv
        rcases List.mem_append.mp hvv with ho | hb
        · exact i4 v ho
        · simp at hb
      · rw [fetchedUrls_append, hfb, List.append_nil]
        exact i5
      · intro u hu
        rw [fetchedUrls_append, hfb, List.append_nil] at hu
        exact i6 u hu
      · refine pairP_extend i7 i3 ?_ ?_
        · intro v hb
          simp at hb
        · intro u v hb
          simp at hb
    · -- skip-matched: pop, mark seen
      cases h
      have hfr : current.fragment = "" := i2 current hcur
      have hfb : fetchedUrls [CrawlEvent.popEv current, CrawlEvent.seenEv current] =
          ([] : List Url) := rfl
      refine ⟨?_, fun u hu => i2 u (hrest u hu), ?_, ?_, ?_, ?_, ?_⟩
      · intro u hu
        rcases Finset.mem_insert.mp hu with hc | ho
        · subst hc; exact hfr
        · exact i1 u ho
      · intro u hu
        rcases List.mem_append.mp hu with ho | hb
        · exact Finset.mem_insert_of_mem (i3 u ho)
        · have hc : u = current := by simpa using hb
          subst hc
          exact Finset.mem_insert_self _ _
      · intro v hvv
        rcases List.mem_append.mp hvv with ho | hb
        · exact i4 v ho
        · simp at hb
      · rw [fetchedUrls_append, hfb, List.append_nil]
        exact i5
      · intro u hu
        rw [fetchedUrls_append, hfb, List.append_nil] at hu
        exact Finset.mem_insert_of_mem (i6 u hu)
      · refine pairP_extend i7 (fun u hu =>
          (Finset.mem_insert_of_mem (i3 u hu) : u ∈ insert current s.seen)) ?_ ?_
        · intro v hb
          simp at hb
        · intro u v _ hb
          simp at hb
    · -- the fetch happens: split on its outcome
      split at h
      · -- fetch failed: pop, mark seen, fetch
        cases h
        have hfr : current.fragment = "" := i2 current hcur
        have hfb : fetchedUrls [CrawlEvent.popEv current, CrawlEvent.seenEv current,
            CrawlEvent.fetchEv current] = [current] := rfl
        refine ⟨?_, fun u hu => i2 u (hrest u hu), ?_, ?_, ?_, ?_, ?_⟩
        · intro u hu
          rcases Finset.mem_insert.mp hu with hc | ho
          · subst hc; exact hfr
          · exact i1 u ho
        · intro u hu
          rcases List.mem_append.mp hu with ho | hb
          · exact Finset.mem_insert_of_mem (i3 u ho)
          · have hc : u = current := by simpa using hb
            subst hc
            exact Finset.mem_insert_self _ _
        · intro v hvv
          rcases List.mem_append.mp hvv with ho | hb
          · exact i4 v ho
          · simp at hb
        · rw [fetchedUrls_append, hfb, List.nodup_append]
          refine ⟨i5, by simp, ?_⟩
          intro a ha hac
          have hc : a = current := by simpa using hac
          subst hc
          exact hseen (i6 a ha)
        · intro u hu
          rw [fetchedUrls_append, hfb] at hu
          rcases List.mem_append.mp hu with ho | hb
          · exact Finset.mem_insert_of_mem (i6 u ho)
          · have hc : u = current := by simpa using hb
            subst hc
            exact Finset.mem_insert_self _ _
        · refine pairP_extend i7 (fun u hu =>
          (Finset.mem_insert_of_mem (i3 u hu) : u ∈ insert current s.seen)) ?_ ?_
          · intro v hb
            simp at hb
          · intro u v _ hb
            simp at hb
      · -- successful fetch
        rename_i hrefs hw
        cases h
        have hfr : current.fragment = "" := i2 current hcur
        have hlinks := @linkTargets_mem rootDomain (insert current s.seen) hrefs
        have hseenblock : ∀ u, CrawlEvent.seenEv u ∈
            [CrawlEvent.popEv current, CrawlEvent.seenEv current,
              CrawlEvent.fetchEv current] ++
              (List.map CrawlEvent.appendEv
                (linkTargets rootDomain (insert current s.seen) hrefs) ++
                [CrawlEvent.sleepEv]) → u = current := by
          intro u hu
          rcases List.mem_append.mp hu with h1 | h2
          · simpa using h1
          · rcases List.mem_append.mp h2 with h3 | h4
            · exact absurd h3 seenEv_notin_appendEvs
            · simp at h4
        have happendblock : ∀ v, CrawlEvent.appendEv v ∈
            [CrawlEvent.popEv current, CrawlEvent.seenEv current,
              CrawlEvent.fetchEv current] ++
              (List.map CrawlEvent.appendEv
                (linkTargets rootDomain (insert current s.seen) hrefs) ++
                [CrawlEvent.sleepEv]) →
            v ∈ linkTargets rootDomain (insert current s.seen) hrefs := by
          intro v hvv
          rcases List.mem_append.mp hvv with h1 | h2
          · simp at h1
          · rcases List.mem_append.mp h2 with h3 | h4
            · exact appendEv_mem_appendEvs h3
            · simp at h4
        have hfblock : fetchedUrls
            ([CrawlEvent.popEv current, CrawlEvent.seenEv current,
              CrawlEvent.fetchEv current] ++
              (List.map CrawlEvent.appendEv
                (linkTargets rootDomain (insert current s.seen) hrefs) ++
                [CrawlEvent.sleepEv])) = [current] := by
          rw [fetchedUrls_append, fetchedUrls_append, fetchedUrls_appendEvs]
          rfl
        refine ⟨?_, ?_, ?_, ?_, ?_, ?_, ?_⟩ <;> simp only [List.append_assoc]
        · intro u hu
          rcases Finset.mem_insert.mp hu with hc | ho
          · subst hc; exact hfr
          · exact i1 u ho
        · intro u hu
          rcases List.mem_append.mp hu with ho | hl
          · exact i2 u (hrest u ho)
          · exact (hlinks u hl).2.1
        · intro u hu
          rcases List.mem_append.mp hu with ho | hb
          · exact Finset.mem_insert_of_mem (i3 u ho)
          · have hc : u = current := hseenblock u hb
            subst hc
            exact Finset.mem_insert_self _ _
        · intro v hvv
          rcases List.mem_append.mp hvv with ho | hb
          · exact i4 v ho
          · exact (hlinks v (happendblock v hb)).2.1
        · rw [fetchedUrls_append, hfblock, List.nodup_append]
          refine ⟨i5, by simp, ?_⟩
          intro a ha hac
          have hc : a = current := by simpa using hac
          subst hc
          exact hseen (i6 a ha)
        · intro u hu
          rw [fetchedUrls_append, hfblock] at hu
          rcases List.mem_append.mp hu with ho | hb
          · exact Finset.mem_insert_of_mem (i6 u ho)
          · have hc : u = current := by simpa using hb
            subst hc
            exact Finset.mem_insert_self _ _
        · refine pairP_extend i7 (fun u hu =>
          (Finset.mem_insert_of_mem (i3 u hu) : u ∈ insert current s.seen)) ?_ ?_
          · intro v hb
            exact (hlinks v (happendblock v hb)).1
          · intro u v hbu hbv
            have hueq : u = current := hseenblock u hbu
            subst hueq
            intro hvu
            exact (hlinks v (happendblock v hbv)).1 (hvu ▸ Finset.mem_insert_self u s.seen)

/-- C7 amended: when the start URL carries no fragment — the start URL
is the only URL the code enqueues without fragment-stripping — the
deduplication invariant holds: with identity taken as the URL with any
fragment removed, no identity is ever fetched twice during a crawl, and
once a URL's seen-event has happened no URL of the same identity is
ever appended to the frontier afterwards. -/
theorem c7_amended_dedup_invariant (world : Url → Option (List Href)) (start : Url)
    (maxPages : ℕ) (h : start.fragment = "") :
    ((fetchedUrls (crawl_site world start maxPages).events).map stripFrag).Nodup ∧
    (∀ l₁ l₂ u v,
      (crawl_site world start maxPages).events = l₁ ++ CrawlEvent.seenEv u :: l₂ →
      CrawlEvent.appendEv v ∈ l₂ → stripFrag v ≠ stripFrag u) := by
  have hinit : InvTrace ⟨[start], ∅, ∅, []⟩ := by
    refine ⟨by simp, ?_, by simp, by simp, by simp [fetchedUrls], by simp [fetchedUrls], ?_⟩
    · intro u hu
      have hus : u = start := by simpa using hu
      exact hus ▸ h
    · intro l₁ l₂ u v heq hv
      have : False := by
        cases l₁ <;> simp_all
      exact absurd this (by simp)
  have hfin : InvTrace (crawl_site world start maxPages) :=
    crawlLoop_preserves crawlStep_invTrace _ hinit
  obtain ⟨f1, f2, f3, f4, f5, f6, f7⟩ := hfin
  constructor
  · have hfr : ∀ x ∈ fetchedUrls (crawl_site world start maxPages).events,
        x.fragment = "" := fun x hx => f1 x (f6 x hx)
    rw [map_stripFrag_self _ hfr]
    exact f5
  · intro l₁ l₂ u v heq hv
    have hvev : CrawlEvent.appendEv v ∈ (crawl_site world start maxPages).events := by
      rw [heq]; simp [hv]
    have huev : CrawlEvent.seenEv u ∈ (crawl_site world start maxPages).events := by
      rw [heq]; simp
    have hne : v ≠ u := f7 l₁ l₂ u v heq hv
    rw [stripFrag_eq_self (f4 v hvev), stripFrag_eq_self (f1 u (f3 u huev))]
    exact hne

/-- Witness for the amended C7 at the concrete fragment-free run of
`exWorld3`. -/
theorem c7_amended_dedup_invariant_witness :
    exUrlA.fragment = "" ∧
      (((fetchedUrls (crawl_site exWorld3 exUrlA 5).events).map stripFrag).Nodup ∧
      (∀ l₁ l₂ u v,
        (crawl_site exWorld3 exUrlA 5).events = l₁ ++ CrawlEvent.seenEv u :: l₂ →
        CrawlEvent.appendEv v ∈ l₂ → stripFrag v ≠ stripFrag u)) :=
  ⟨rfl, c7_amended_dedup_invariant exWorld3 exUrlA 5 rfl⟩

/-- A start URL carrying a fragment: the seed of the C7 counterexample,
whose page links to its own fragment-free form. -/
def exUrlAF : Url := ⟨"https", "site.com", "/a", "x"⟩

/-- World of the C7 counterexample. -/
def exWorld7 : Url → Option (List Href) := fun u =>
  if u = exUrlAF then some [Href.absLink exUrlA]
  else if u = exUrlA then some [] else none

/-- Final state of the C7 counterexample run: the fragment-free form of
the seed is appended and fetched although the seed — same identity
after fragment removal — is already seen. -/
def exFinal7 : CrawlState :=
  ⟨[], insert exUrlA (insert exUrlAF ∅), insert exUrlA (insert exUrlAF ∅),
    [CrawlEvent.popEv exUrlAF, CrawlEvent.seenEv exUrlAF, CrawlEvent.fetchEv exUrlAF,
     CrawlEvent.appendEv exUrlA, CrawlEvent.sleepEv,
     CrawlEvent.popEv exUrlA, CrawlEvent.seenEv exUrlA, CrawlEvent.fetchEv exUrlA,
     CrawlEvent.sleepEv]⟩

theorem exRun7 : crawl_site exWorld7 exUrlAF 5 = exFinal7 :=
  crawlLoopF_sound 10 ⟨[exUrlAF], ∅, ∅, []⟩ exFinal7 (by decide)

/-- C7 fails as stated on the code: the start URL is enqueued and
marked seen without fragment stripping, so with identity "URL string
with any fragment removed" the same identity is fetched twice —
`https://site.com/a#x` as the seed and `https://site.com/a` again via
a link, even though the identity was already seen. -/
theorem c7_counterexample_fragment_seed :
    ¬ ((fetchedUrls (crawl_site exWorld7 exUrlAF 5).events).map stripFrag).Nodup := by
  rw [exRun7]
  decide

end BrandScanner
